import Mathlib

/-!
# Verification of the CSS/HTML cleanup analyzer core

Shallow embedding of `css_html_analyzer.py` (class `CSSHTMLAnalyzer`): the
selector decomposition engine (`_extract_selector_components`), the rule index
built by `parse_css_files` (fields `css_selectors` and `duplicate_rules`,
`_hash_rule`), and the three analyzer operations `find_unused_selectors`,
`find_duplicate_selectors`, `find_duplicate_rules`.

Strings are modelled over their character lists; Python's regex character
classes are modelled for ASCII (the analyzer's selectors and declaration
blocks are ASCII in all the properties considered here).  Scanning functions
that advance by a matched chunk are written with an explicit fuel argument
equal to the input length, which is always sufficient because every step
consumes at least one character per unit of fuel; this keeps every definition
structurally recursive and kernel-computable.
-/

namespace CssHtml

/-- Python regex `\w` for ASCII: `[A-Za-z0-9_]`. -/
def isWordChar (c : Char) : Bool := c.isAlpha || c.isDigit || c == '_'

/-- The character class `[\w-]` used by the pseudo-class stripping regex. -/
def isWordHyphen (c : Char) : Bool := isWordChar c || c == '-'

/-- The character class `[a-zA-Z0-9_-]` used by the class/id extraction
regexes in `_extract_selector_components`. -/
def isClassIdChar (c : Char) : Bool := c.isAlpha || c.isDigit || c == '_' || c == '-'

/-- The character class `[a-z0-9]` of the tag-extraction regex body. -/
def isTagChar (c : Char) : Bool := c.isLower || c.isDigit

/-- Python regex `\s` / `str.strip` whitespace, ASCII part:
space, tab, newline, carriage return, vertical tab, form feed. -/
def isPySpace (c : Char) : Bool :=
  c == ' ' || c == '\t' || c == '\n' || c == '\r' || c == Char.ofNat 11 || c == Char.ofNat 12

/-!
## Pseudo-class / pseudo-element stripping

`cleaned = re.sub(r'::?[\w-]+(\([^)]*\))?', '', selector)` (line 98 of the
source).  A match at a position is: one or two colons, a nonempty run of
`[\w-]`, and optionally a parenthesized argument running to the first `)`.
If `(` is present but no closing `)` follows, the optional group fails and
the match ends after the `[\w-]+` run (regex backtracking).  `re.sub` scans
left to right, removing each match and resuming after it.
-/

/-- Match the `[\w-]+(\([^)]*\))?` part of the pseudo regex at the head of
`cs`; return the remainder after the match, or `none` if `[\w-]+` fails. -/
def matchPseudoBody (cs : List Char) : Option (List Char) :=
  match cs with
  | [] => none
  | c :: _ =>
    if isWordHyphen c then
      let rest := cs.dropWhile isWordHyphen
      match rest with
      | '(' :: r2 =>
        match r2.dropWhile (fun d => !(d == ')')) with
        | ')' :: r3 => some r3
        | _ => some rest
      | _ => some rest
    else none

/-- Match `::?` then the body.  When two colons are present but the body
fails, backtracking to a single colon also fails (the second colon is not a
`[\w-]` character), so trying the two-colon form first is exhaustive. -/
def matchPseudo : List Char → Option (List Char)
  | ':' :: ':' :: rest => matchPseudoBody rest
  | ':' :: rest => matchPseudoBody rest
  | _ => none

/-- Fueled left-to-right `re.sub(..., '')` scan.  Each step consumes at least
one character and one unit of fuel, so fuel = input length is exact. -/
def stripPseudoF : Nat → List Char → List Char
  | 0, _ => []
  | _ + 1, [] => []
  | fuel + 1, c :: rest =>
    match matchPseudo (c :: rest) with
    | some r => stripPseudoF fuel r
    | none => c :: stripPseudoF fuel rest

/-- `re.sub(r'::?[\w-]+(\([^)]*\))?', '', selector)` on character lists. -/
def stripPseudo (cs : List Char) : List Char := stripPseudoF cs.length cs

/-!
## Class and id extraction

`re.findall(r'\.([a-zA-Z0-9_-]+)', cleaned)` (classes, line 101) and
`re.findall(r'#([a-zA-Z0-9_-]+)', cleaned)` (ids, line 104): every marker
character followed by a nonempty maximal run of `[a-zA-Z0-9_-]`; the scan
resumes after each match.
-/

/-- Fueled scan for `marker([a-zA-Z0-9_-]+)`. -/
def findMarkedF (marker : Char) : Nat → List Char → List (List Char)
  | 0, _ => []
  | _ + 1, [] => []
  | fuel + 1, c :: rest =>
    if c == marker then
      match rest with
      | [] => []
      | d :: _ =>
        if isClassIdChar d then
          rest.takeWhile isClassIdChar :: findMarkedF marker fuel (rest.dropWhile isClassIdChar)
        else
          findMarkedF marker fuel rest
    else findMarkedF marker fuel rest

/-- `re.findall(r'<marker>([a-zA-Z0-9_-]+)', cs)`. -/
def findMarked (marker : Char) (cs : List Char) : List (List Char) :=
  findMarkedF marker cs.length cs

/-!
## Tag extraction

`re.findall(r'\b([a-z][a-z0-9]*)\b', cleaned.lower())` (line 108).  `\b` is a
word/non-word boundary.  The scanner below carries `prevW`, whether the
character before the current position is a word character (`false` at the
start of the string).  At a position opening a word boundary whose character
is `[a-z]`, the greedy `[a-z0-9]*` consumes the maximal `[a-z0-9]` run; the
trailing `\b` holds iff the character after that run is not a word character
(every backtracked shorter run ends before an `[a-z0-9]` character, which is
a word character, so backtracking never rescues a failed attempt).  On
failure the engine retries at the next position.
-/

/-- Fueled scanner for `re.findall(r'\b([a-z][a-z0-9]*)\b', ·)`. -/
def findTagsF : Nat → Bool → List Char → List (List Char)
  | 0, _, _ => []
  | _ + 1, _, [] => []
  | fuel + 1, prevW, c :: rest =>
    if !prevW && c.isLower then
      match (c :: rest).dropWhile isTagChar with
      | [] => [(c :: rest).takeWhile isTagChar]
      | d :: tl =>
        if isWordChar d then
          findTagsF fuel (isWordChar c) rest
        else
          (c :: rest).takeWhile isTagChar :: findTagsF fuel true (d :: tl)
    else findTagsF fuel (isWordChar c) rest

/-- `re.findall(r'\b([a-z][a-z0-9]*)\b', cs)` on character lists. -/
def findTags (cs : List Char) : List (List Char) := findTagsF cs.length false cs

/-!
## Specification-side description of tag extraction

The spec describes the extracted tag candidates as "every maximal run of
`[a-z][a-z0-9]*`"; the two definitions below express that reading directly:
the maximal word runs of the text, filtered to those that fully match
`[a-z][a-z0-9]*`.  They are used only to state the characterization of
`findTags`, never inside the embedded code.
-/

/-- Dropping a prefix never lengthens a list (used for termination and fuel
bookkeeping of the scanners). -/
theorem length_dropWhile_le {α : Type} (p : α → Bool) :
    ∀ l : List α, (l.dropWhile p).length ≤ l.length
  | [] => Nat.le_refl _
  | a :: l => by
    rw [List.dropWhile_cons]
    split
    · exact Nat.le_succ_of_le (length_dropWhile_le p l)
    · exact Nat.le_refl _

/-- The maximal runs of word characters of a string, in order. -/
def wordRuns : List Char → List (List Char)
  | [] => []
  | c :: rest =>
    if isWordChar c then
      (c :: rest.takeWhile isWordChar) :: wordRuns (rest.dropWhile isWordChar)
    else wordRuns rest
termination_by cs => cs.length
decreasing_by
  · exact Nat.lt_succ_of_le (length_dropWhile_le _ _)
  · exact Nat.lt_succ_self _

/-- Whether a word run fully matches `[a-z][a-z0-9]*`. -/
def tagPat : List Char → Bool
  | [] => false
  | c :: rest => c.isLower && rest.all isTagChar

/-!
## Selector decomposition (`_extract_selector_components`)
-/

/-- The component dictionary returned by `_extract_selector_components`:
three sets of names. -/
structure Components where
  classes : Finset String
  ids : Finset String
  tags : Finset String
deriving DecidableEq

/-- The fixed keyword set subtracted from the tag candidates (line 109). -/
def keywordSet : Finset String := {"not", "is", "where", "has"}

/-- `_extract_selector_components(selector)` (lines 89–111): strip
pseudo-classes/elements, collect `.`-marked runs as classes, `#`-marked runs
as ids, and the `\b[a-z][a-z0-9]*\b` matches of the lowercased cleaned text,
minus the keyword set, as tags. -/
def extractSelectorComponents (selector : String) : Components :=
  let cleaned := stripPseudo selector.data
  { classes := ((findMarked '.' cleaned).map (fun w => String.mk w)).toFinset
    ids := ((findMarked '#' cleaned).map (fun w => String.mk w)).toFinset
    tags := ((findTags (cleaned.map Char.toLower)).map (fun w => String.mk w)).toFinset \ keywordSet }

/-!
## Rule hashing and the rule index (`_hash_rule`, `parse_css_files`)
-/

/-- Fueled `re.sub(r'\s+', ' ', ·)`: each maximal whitespace run becomes one
space. -/
def collapseWSF : Nat → List Char → List Char
  | 0, _ => []
  | _ + 1, [] => []
  | fuel + 1, c :: rest =>
    if isPySpace c then ' ' :: collapseWSF fuel (rest.dropWhile isPySpace)
    else c :: collapseWSF fuel rest

/-- `re.sub(r'\s+', ' ', cs)`. -/
def collapseWS (cs : List Char) : List Char := collapseWSF cs.length cs

/-- Python `str.strip()`: drop leading and trailing whitespace. -/
def pyStrip (cs : List Char) : List Char :=
  ((cs.dropWhile isPySpace).reverse.dropWhile isPySpace).reverse

/-- `re.sub(r'\s+', ' ', css_text).strip()` (line 86). -/
def normalizeWS (s : String) : String := String.mk (pyStrip (collapseWS s.data))

/-- `_hash_rule(selector, css_text) = f"{selector}|{normalized}"` (lines
83–87). -/
def hashRule (selector cssText : String) : String :=
  selector ++ "|" ++ normalizeWS cssText

/-- One style-rule triple handed to the core by the CSS collaborator:
`(rule.selectorText, rule.style.cssText, str(css_file))`. -/
structure RuleInput where
  selector : String
  cssText : String
  file : String
deriving DecidableEq

/-- Append `v` to the list stored under key `k`, creating the key at the end
on first sight — the behaviour of `defaultdict(list)[k].append(v)` with
Python's insertion-ordered dict iteration. -/
def alistAppend {β : Type} (k : String) (v : β) :
    List (String × List β) → List (String × List β)
  | [] => [(k, [v])]
  | p :: rest => if p.1 = k then (p.1, p.2 ++ [v]) :: rest else p :: alistAppend k v rest

/-- The list stored under key `k` (empty when the key is absent). -/
def alistGet {β : Type} (k : String) : List (String × List β) → List β
  | [] => []
  | p :: rest => if p.1 = k then p.2 else alistGet k rest

/-- The mutable state built by `parse_css_files`: `css_selectors` maps each
selector text to its source files, `duplicate_rules` maps each rule hash to
its `(file, selector)` occurrences. -/
structure RuleIndex where
  css_selectors : List (String × List String)
  duplicate_rules : List (String × List (String × String))
deriving DecidableEq

/-- The body of the `parse_css_files` loop for one style rule (lines 70–78). -/
def insertRule (idx : RuleIndex) (r : RuleInput) : RuleIndex :=
  { css_selectors := alistAppend r.selector r.file idx.css_selectors
    duplicate_rules :=
      alistAppend (hashRule r.selector r.cssText) (r.file, r.selector) idx.duplicate_rules }

/-- `parse_css_files` over an explicit sequence of rule triples. -/
def buildIndex (rules : List RuleInput) : RuleIndex :=
  rules.foldl insertRule ⟨[], []⟩

/-!
## Usage fact base and the three analyzer operations
-/

/-- The sets collected by `parse_html_files`. -/
structure UsageFacts where
  html_classes : Finset String
  html_ids : Finset String
  html_tags : Finset String
deriving DecidableEq

/-- `any(x in t for x in s)` over a component set: whether some element of
`s` is also in `t`. -/
def anyMem (s t : Finset String) : Bool := decide (s ∩ t).Nonempty

/-- One entry of the `find_unused_selectors` result list. -/
structure UnusedEntry where
  selector : String
  files : List String
  components : Components
deriving DecidableEq

/-- `find_unused_selectors` (lines 113–134). -/
def find_unused_selectors (idx : RuleIndex) (facts : UsageFacts) : List UnusedEntry :=
  idx.css_selectors.filterMap (fun p =>
    let comps := extractSelectorComponents p.1
    let class_used := anyMem comps.classes facts.html_classes
    let id_used := anyMem comps.ids facts.html_ids
    let tag_used := anyMem comps.tags facts.html_tags
    let has_components :=
      decide comps.classes.Nonempty || decide comps.ids.Nonempty || decide comps.tags.Nonempty
    if has_components && !(class_used || id_used || tag_used) then
      some { selector := p.1, files := p.2, components := comps }
    else none)

/-- One entry of the `find_duplicate_selectors` result list. -/
structure DupSelectorEntry where
  selector : String
  count : Nat
  files : List String
deriving DecidableEq

/-- `find_duplicate_selectors` (lines 136–148). -/
def find_duplicate_selectors (idx : RuleIndex) : List DupSelectorEntry :=
  idx.css_selectors.filterMap (fun p =>
    if p.2.length > 1 then some { selector := p.1, count := p.2.length, files := p.2 }
    else none)

/-- `rule_hash.split('|')[0]`: the text before the first `'|'`. -/
def splitBarHead (s : String) : String :=
  String.mk (s.data.takeWhile (fun c => !(c == '|')))

/-- One entry of the `find_duplicate_rules` result list. -/
structure DupRuleEntry where
  rule : String
  count : Nat
  locations : List (String × String)
deriving DecidableEq

/-- `find_duplicate_rules` (lines 150–162). -/
def find_duplicate_rules (idx : RuleIndex) : List DupRuleEntry :=
  idx.duplicate_rules.filterMap (fun p =>
    if p.2.length > 1 then
      some { rule := splitBarHead p.1, count := p.2.length, locations := p.2 }
    else none)

/-!
## Generic helper lemmas about `takeWhile`/`dropWhile` scans
-/

/-- Every element of a `takeWhile` prefix satisfies the predicate. -/
theorem all_takeWhile {α : Type} (p : α → Bool) :
    ∀ l : List α, (l.takeWhile p).all p = true
  | [] => rfl
  | a :: l => by
    rw [List.takeWhile_cons]
    split
    · simp [*, all_takeWhile p l]
    · rfl

/-- `takeWhile` of a list all of whose elements pass is the list itself. -/
theorem takeWhile_eq_self_of_all {α : Type} {p : α → Bool} :
    ∀ {l : List α}, (∀ x ∈ l, p x = true) → l.takeWhile p = l
  | [], _ => rfl
  | a :: l, h => by
    rw [List.takeWhile_cons, if_pos (h a (by simp))]
    rw [takeWhile_eq_self_of_all (fun x hx => h x (by simp [hx]))]

/-- If `dropWhile` reaches the empty list, every element passed. -/
theorem all_of_dropWhile_eq_nil {α : Type} {p : α → Bool} :
    ∀ {l : List α}, l.dropWhile p = [] → ∀ x ∈ l, p x = true
  | [], _, x, hx => by simp at hx
  | a :: l, h, x, hx => by
    rw [List.dropWhile_cons] at h
    by_cases hp : p a = true
    · rw [if_pos hp] at h
      rcases List.mem_cons.1 hx with rfl | hx'
      · exact hp
      · exact all_of_dropWhile_eq_nil h x hx'
    · rw [if_neg hp] at h
      exact absurd h (by simp)

/-- A passing prefix followed by a failing element is exactly what
`takeWhile` takes. -/
theorem takeWhile_append_not {α : Type} {p : α → Bool} :
    ∀ {l : List α} {x : α} (r : List α), (∀ c ∈ l, p c = true) → p x = false →
      (l ++ x :: r).takeWhile p = l
  | [], x, r, _, hx => by simp [List.takeWhile_cons, hx]
  | a :: l, x, r, h, hx => by
    rw [List.cons_append, List.takeWhile_cons, if_pos (h a (by simp))]
    rw [takeWhile_append_not r (fun c hc => h c (by simp [hc])) hx]

/-- A passing prefix followed by a failing element is exactly what
`dropWhile` drops. -/
theorem dropWhile_append_not {α : Type} {p : α → Bool} :
    ∀ {l : List α} {x : α} (r : List α), (∀ c ∈ l, p c = true) → p x = false →
      (l ++ x :: r).dropWhile p = x :: r
  | [], x, r, _, hx => by simp [List.dropWhile_cons, hx]
  | a :: l, x, r, h, hx => by
    rw [List.cons_append, List.dropWhile_cons, if_pos (h a (by simp))]
    exact dropWhile_append_not r (fun c hc => h c (by simp [hc])) hx

/-!
## Character-class lemmas
-/

theorem isWordChar_of_isTagChar {c : Char} (h : isTagChar c = true) : isWordChar c = true := by
  rcases Bool.or_eq_true_iff.1 h with h' | h'
  · simp [isWordChar, Char.isAlpha, h']
  · simp [isWordChar, h']

theorem isWordChar_of_isLower {c : Char} (h : c.isLower = true) : isWordChar c = true := by
  simp [isWordChar, Char.isAlpha, h]

theorem isTagChar_of_isLower {c : Char} (h : c.isLower = true) : isTagChar c = true := by
  simp [isTagChar, h]

/-- If the maximal `[a-z0-9]` prefix of `l` is followed by a word character,
then the maximal word-character prefix of `l` contains a non-`[a-z0-9]`
element. -/
theorem all_takeWhile_word_eq_false {d : Char} {tl : List Char} :
    ∀ {l : List Char}, l.dropWhile isTagChar = d :: tl → isWordChar d = true →
      (l.takeWhile isWordChar).all isTagChar = false
  | [], h, _ => by simp at h
  | c :: l, h, hd => by
    rw [List.dropWhile_cons] at h
    by_cases hc : isTagChar c = true
    · rw [if_pos hc] at h
      rw [List.takeWhile_cons, if_pos (isWordChar_of_isTagChar hc)]
      simp only [List.all_cons, hc, Bool.true_and]
      exact all_takeWhile_word_eq_false h hd
    · rw [if_neg hc] at h
      obtain ⟨rfl, rfl⟩ : c = d ∧ l = tl := by
        constructor <;> [exact (List.cons.injEq .. ▸ h).1; exact (List.cons.injEq .. ▸ h).2]
      rw [List.takeWhile_cons, if_pos hd]
      have hc' : isTagChar c = false := Bool.eq_false_iff.2 hc
      simp [hc']

/-- `dropWhile` of a list all of whose elements pass is empty. -/
theorem dropWhile_eq_nil_of_all {α : Type} {p : α → Bool} :
    ∀ {l : List α}, (∀ x ∈ l, p x = true) → l.dropWhile p = []
  | [], _ => rfl
  | a :: l, h => by
    rw [List.dropWhile_cons, if_pos (h a (by simp))]
    exact dropWhile_eq_nil_of_all (fun x hx => h x (by simp [hx]))

/-- Unfolding lemma for `wordRuns` on the empty list. -/
theorem wordRuns_nil : wordRuns [] = [] := by rw [wordRuns]

/-- Unfolding lemma for `wordRuns` on a cons cell. -/
theorem wordRuns_cons (c : Char) (rest : List Char) :
    wordRuns (c :: rest) =
      if isWordChar c then
        (c :: rest.takeWhile isWordChar) :: wordRuns (rest.dropWhile isWordChar)
      else wordRuns rest := by
  rw [wordRuns]

/-!
## The characterization of tag extraction

`findTags` (the embedding of `re.findall(r'\b([a-z][a-z0-9]*)\b', ·)`)
returns exactly the maximal word runs of the text that fully match
`[a-z][a-z0-9]*`, in order.  The `prevW` parameter is handled by noting that
starting mid-word is the same as starting after the current word run.
-/

theorem findTagsF_eq_wordRuns (n : Nat) :
    ∀ (prevW : Bool) (cs : List Char), cs.length ≤ n →
      findTagsF n prevW cs =
        (wordRuns (if prevW then cs.dropWhile isWordChar else cs)).filter tagPat := by
  induction n with
  | zero =>
    intro prevW cs h
    have hcs : cs = [] := List.length_eq_zero.1 (Nat.le_zero.1 h)
    subst hcs
    cases prevW <;> simp [findTagsF, wordRuns_nil]
  | succ n ih =>
    intro prevW cs h
    cases cs with
    | nil => cases prevW <;> simp [findTagsF, wordRuns_nil]
    | cons c rest =>
      have hlen : rest.length ≤ n := by
        simp only [List.length_cons] at h
        omega
      cases prevW with
      | true =>
        have hstep : findTagsF (n + 1) true (c :: rest) = findTagsF n (isWordChar c) rest := by
          simp [findTagsF]
        rw [hstep, ih (isWordChar c) rest hlen, if_pos rfl]
        by_cases hw : isWordChar c = true
        · rw [hw, if_pos rfl, List.dropWhile_cons, if_pos hw]
        · have hw' : isWordChar c = false := Bool.eq_false_iff.2 hw
          rw [hw', if_neg (by simp), List.dropWhile_cons, if_neg (by simp [hw']),
            wordRuns_cons, if_neg (by simp [hw'])]
      | false =>
        rw [if_neg (by simp)]
        by_cases hl : c.isLower = true
        · -- boundary open and `[a-z]` matches
          have htagc : isTagChar c = true := isTagChar_of_isLower hl
          have hwordc : isWordChar c = true := isWordChar_of_isLower hl
          have hdrop : (c :: rest).dropWhile isTagChar = rest.dropWhile isTagChar := by
            rw [List.dropWhile_cons, if_pos htagc]
          have htake : (c :: rest).takeWhile isTagChar = c :: rest.takeWhile isTagChar := by
            rw [List.takeWhile_cons, if_pos htagc]
          rcases hafter : rest.dropWhile isTagChar with _ | ⟨d, tl⟩
          · -- the whole remaining text is one `[a-z0-9]` run
            have hall : ∀ x ∈ rest, isTagChar x = true := all_of_dropWhile_eq_nil hafter
            have hstep : findTagsF (n + 1) false (c :: rest) = [(c :: rest).takeWhile isTagChar] := by
              simp [findTagsF, hl, hdrop, hafter]
            rw [hstep, htake, takeWhile_eq_self_of_all hall, wordRuns_cons, if_pos hwordc,
              takeWhile_eq_self_of_all (fun x hx => isWordChar_of_isTagChar (hall x hx)),
              dropWhile_eq_nil_of_all (fun x hx => isWordChar_of_isTagChar (hall x hx)),
              wordRuns_nil]
            have hpat : tagPat (c :: rest) = true := by
              simp [tagPat, hl, List.all_eq_true]
              exact hall
            simp [hpat]
          · by_cases hd : isWordChar d = true
            · -- the word run continues with a non-`[a-z0-9]` word character:
              -- the match attempt fails and the scanner retries at the next position
              have hstep : findTagsF (n + 1) false (c :: rest) = findTagsF n (isWordChar c) rest := by
                simp [findTagsF, hl, hdrop, hafter, hd]
              rw [hstep, ih (isWordChar c) rest hlen, hwordc, if_pos rfl,
                wordRuns_cons, if_pos hwordc]
              have hpat : tagPat (c :: rest.takeWhile isWordChar) = false := by
                simp only [tagPat, Bool.and_eq_false_iff]
                exact Or.inr (all_takeWhile_word_eq_false hafter hd)
              simp [hpat]
            · -- successful match: emit the run, resume after it
              have hd' : isWordChar d = false := Bool.eq_false_iff.2 hd
              have hlen' : (d :: tl).length ≤ n := by
                have := length_dropWhile_le isTagChar rest
                rw [hafter] at this
                omega
              have hstep : findTagsF (n + 1) false (c :: rest) =
                  (c :: rest).takeWhile isTagChar :: findTagsF n true (d :: tl) := by
                simp [findTagsF, hl, hdrop, hafter, hd]
              have hdfix : List.dropWhile isWordChar (d :: tl) = d :: tl := by
                rw [List.dropWhile_cons, hd']
                simp
              rw [hstep, ih true (d :: tl) hlen', if_pos rfl, hdfix]
              have hsplit : rest = rest.takeWhile isTagChar ++ d :: tl := by
                conv_lhs => rw [← List.takeWhile_append_dropWhile (p := isTagChar) (l := rest)]
                rw [hafter]
              have htagall : ∀ x ∈ rest.takeWhile isTagChar, isTagChar x = true := by
                intro x hx
                have := all_takeWhile isTagChar rest
                rw [List.all_eq_true] at this
                exact this x hx
              have hwordall : ∀ x ∈ rest.takeWhile isTagChar, isWordChar x = true :=
                fun x hx => isWordChar_of_isTagChar (htagall x hx)
              have htakeW : rest.takeWhile isWordChar = rest.takeWhile isTagChar := by
                conv_lhs => rw [hsplit]
                exact takeWhile_append_not _ hwordall hd'
              have hdropW : rest.dropWhile isWordChar = d :: tl := by
                conv_lhs => rw [hsplit]
                exact dropWhile_append_not _ hwordall hd'
              rw [wordRuns_cons c rest, if_pos hwordc, htakeW, hdropW, htake]
              have hpat : tagPat (c :: rest.takeWhile isTagChar) = true := by
                simp only [tagPat, hl, Bool.true_and, List.all_eq_true]
                exact htagall
              simp [hpat]
        · -- `[a-z]` fails at this position: retry at the next one
          have hl' : c.isLower = false := Bool.eq_false_iff.2 hl
          have hstep : findTagsF (n + 1) false (c :: rest) = findTagsF n (isWordChar c) rest := by
            simp [findTagsF, hl']
          rw [hstep, ih (isWordChar c) rest hlen]
          by_cases hw : isWordChar c = true
          · rw [hw, if_pos rfl, wordRuns_cons, if_pos hw]
            have hpat : tagPat (c :: rest.takeWhile isWordChar) = false := by
              simp [tagPat, hl']
            simp [hpat]
          · have hw' : isWordChar c = false := Bool.eq_false_iff.2 hw
            rw [hw', if_neg (by simp), wordRuns_cons, if_neg (by simp [hw'])]

/-- Top-level form of the characterization. -/
theorem findTags_eq_wordRuns (cs : List Char) :
    findTags cs = (wordRuns cs).filter tagPat := by
  have := findTagsF_eq_wordRuns cs.length false cs (Nat.le_refl _)
  simpa [findTags] using this

/-!
## Membership characterizations of the analyzer operations
-/

theorem anyMem_eq_false_iff (s t : Finset String) :
    anyMem s t = false ↔ ∀ x ∈ s, x ∉ t := by
  rw [anyMem, decide_eq_false_iff_not]
  simp only [Finset.Nonempty, Finset.mem_inter, not_exists, not_and]

theorem anyMem_eq_false_of_subset {s t t' : Finset String} (hsub : t' ⊆ t)
    (h : anyMem s t = false) : anyMem s t' = false := by
  rw [anyMem_eq_false_iff] at h ⊢
  exact fun x hx hx' => h x hx (hsub hx')

/-- The boolean test of the `find_unused_selectors` loop, in propositional
form. -/
theorem unused_cond_iff (comps : Components) (facts : UsageFacts) :
    ((decide comps.classes.Nonempty || decide comps.ids.Nonempty ||
        decide comps.tags.Nonempty) &&
      !(anyMem comps.classes facts.html_classes || anyMem comps.ids facts.html_ids ||
        anyMem comps.tags facts.html_tags)) = true ↔
      ((comps.classes.Nonempty ∨ comps.ids.Nonempty ∨ comps.tags.Nonempty) ∧
        (∀ x ∈ comps.classes, x ∉ facts.html_classes) ∧
        (∀ x ∈ comps.ids, x ∉ facts.html_ids) ∧
        (∀ x ∈ comps.tags, x ∉ facts.html_tags)) := by
  rw [Bool.and_eq_true, Bool.or_eq_true, Bool.or_eq_true, Bool.not_eq_true',
    Bool.or_eq_false_iff, Bool.or_eq_false_iff, anyMem_eq_false_iff, anyMem_eq_false_iff,
    anyMem_eq_false_iff]
  simp [and_assoc, or_assoc]

/-- What it means to be an entry of the `find_unused_selectors` output. -/
theorem mem_find_unused_iff (idx : RuleIndex) (facts : UsageFacts) (e : UnusedEntry) :
    e ∈ find_unused_selectors idx facts ↔
      ((e.selector, e.files) ∈ idx.css_selectors ∧
        e.components = extractSelectorComponents e.selector ∧
        (e.components.classes.Nonempty ∨ e.components.ids.Nonempty ∨
          e.components.tags.Nonempty) ∧
        (∀ x ∈ e.components.classes, x ∉ facts.html_classes) ∧
        (∀ x ∈ e.components.ids, x ∉ facts.html_ids) ∧
        (∀ x ∈ e.components.tags, x ∉ facts.html_tags)) := by
  obtain ⟨sel, files, comps⟩ := e
  simp only [find_unused_selectors, List.mem_filterMap]
  constructor
  · rintro ⟨⟨s, fs⟩, hmem, hf⟩
    simp only at hf
    split at hf
    · rename_i hcond
      have he := Option.some.inj hf
      have h1 : s = sel := congrArg UnusedEntry.selector he
      have h2 : fs = files := congrArg UnusedEntry.files he
      have h3 : extractSelectorComponents s = comps := congrArg UnusedEntry.components he
      subst h1
      subst h2
      rw [← h3]
      have h := (unused_cond_iff (extractSelectorComponents s) facts).1 hcond
      exact ⟨hmem, rfl, h.1, h.2.1, h.2.2.1, h.2.2.2⟩
    · cases hf
  · rintro ⟨hmem, rfl, h1, h2, h3, h4⟩
    refine ⟨(sel, files), hmem, ?_⟩
    simp only
    rw [if_pos ((unused_cond_iff (extractSelectorComponents sel) facts).2 ⟨h1, h2, h3, h4⟩)]

/-- What it means to be an entry of the `find_duplicate_selectors` output. -/
theorem mem_find_duplicate_selectors_iff (idx : RuleIndex) (e : DupSelectorEntry) :
    e ∈ find_duplicate_selectors idx ↔
      ∃ p ∈ idx.css_selectors, 1 < p.2.length ∧
        e = ⟨p.1, p.2.length, p.2⟩ := by
  simp only [find_duplicate_selectors, List.mem_filterMap]
  constructor
  · rintro ⟨p, hp, hf⟩
    split at hf
    · rename_i hlen
      exact ⟨p, hp, hlen, (Option.some.inj hf).symm⟩
    · cases hf
  · rintro ⟨p, hp, hlen, rfl⟩
    exact ⟨p, hp, by rw [if_pos hlen]⟩

/-- What it means to be an entry of the `find_duplicate_rules` output. -/
theorem mem_find_duplicate_rules_iff (idx : RuleIndex) (e : DupRuleEntry) :
    e ∈ find_duplicate_rules idx ↔
      ∃ p ∈ idx.duplicate_rules, 1 < p.2.length ∧
        e = ⟨splitBarHead p.1, p.2.length, p.2⟩ := by
  simp only [find_duplicate_rules, List.mem_filterMap]
  constructor
  · rintro ⟨p, hp, hf⟩
    split at hf
    · rename_i hlen
      exact ⟨p, hp, hlen, (Option.some.inj hf).symm⟩
    · cases hf
  · rintro ⟨p, hp, hlen, rfl⟩
    exact ⟨p, hp, by rw [if_pos hlen]⟩

/-!
## Association-list lemmas: the rule index as built by `parse_css_files`
-/

theorem alistGet_alistAppend {β : Type} (k k' : String) (v : β)
    (al : List (String × List β)) :
    alistGet k (alistAppend k' v al) =
      if k' = k then alistGet k al ++ [v] else alistGet k al := by
  induction al with
  | nil =>
    by_cases h : k' = k <;> simp [alistAppend, alistGet, h]
  | cons p rest ih =>
    by_cases hp : p.1 = k'
    · rw [alistAppend, if_pos hp]
      by_cases hk : p.1 = k
      · rw [alistGet, if_pos hk, alistGet, if_pos hk, if_pos (hp ▸ hk)]
      · rw [alistGet, if_neg hk, alistGet, if_neg hk, if_neg (fun h => hk (hp.trans h))]
    · rw [alistAppend, if_neg hp]
      by_cases hk : p.1 = k
      · rw [alistGet, if_pos hk, alistGet, if_pos hk,
          if_neg (fun h => hp (hk.trans h.symm))]
      · rw [alistGet, if_neg hk, alistGet, if_neg hk, ih]

theorem mem_keys_alistAppend {β : Type} (k k' : String) (v : β)
    (al : List (String × List β)) :
    k' ∈ (alistAppend k v al).map Prod.fst ↔ k' ∈ al.map Prod.fst ∨ k' = k := by
  induction al with
  | nil => simp [alistAppend, eq_comm]
  | cons p rest ih =>
    by_cases hp : p.1 = k
    · rw [alistAppend, if_pos hp]
      subst hp
      simp only [List.map_cons, List.mem_cons]
      tauto
    · rw [alistAppend, if_neg hp]
      simp only [List.map_cons, List.mem_cons, ih]
      tauto

theorem keys_nodup_alistAppend {β : Type} (k : String) (v : β)
    {al : List (String × List β)} (h : (al.map Prod.fst).Nodup) :
    ((alistAppend k v al).map Prod.fst).Nodup := by
  induction al with
  | nil => simp [alistAppend]
  | cons p rest ih =>
    rw [List.map_cons, List.nodup_cons] at h
    by_cases hp : p.1 = k
    · rw [alistAppend, if_pos hp]
      simp only [List.map_cons, List.nodup_cons]
      exact h
    · rw [alistAppend, if_neg hp]
      simp only [List.map_cons, List.nodup_cons]
      refine ⟨?_, ih h.2⟩
      rw [mem_keys_alistAppend]
      rintro (hmem | rfl)
      · exact h.1 hmem
      · exact hp rfl

theorem alistGet_of_mem {β : Type} {k : String} {vs : List β}
    {al : List (String × List β)} (hnd : (al.map Prod.fst).Nodup)
    (hmem : (k, vs) ∈ al) : alistGet k al = vs := by
  induction al with
  | nil => cases hmem
  | cons p rest ih =>
    rw [List.map_cons, List.nodup_cons] at hnd
    rcases List.mem_cons.1 hmem with rfl | hmem'
    · rw [alistGet, if_pos rfl]
    · have hk : k ∈ rest.map Prod.fst := List.mem_map.2 ⟨(k, vs), hmem', rfl⟩
      have hne : p.1 ≠ k := by
        intro h
        rw [h] at hnd
        exact hnd.1 hk
      rw [alistGet, if_neg hne, ih hnd.2 hmem']

theorem mem_of_alistGet_ne_nil {β : Type} {k : String} {al : List (String × List β)}
    (h : alistGet k al ≠ []) : (k, alistGet k al) ∈ al := by
  induction al with
  | nil => exact absurd rfl h
  | cons p rest ih =>
    by_cases hp : p.1 = k
    · rw [alistGet, if_pos hp] at h ⊢
      exact List.mem_cons.2 (Or.inl (by rw [← hp]))
    · rw [alistGet, if_neg hp] at h ⊢
      exact List.mem_cons.2 (Or.inr (ih h))

/-!
## The rule index as a fold over the input sequence
-/

theorem buildIndex_css_selectors_eq (rules : List RuleInput) :
    ∀ init : RuleIndex,
      (rules.foldl insertRule init).css_selectors =
        rules.foldl (fun al r => alistAppend r.selector r.file al) init.css_selectors := by
  induction rules with
  | nil => intro _; rfl
  | cons r rs ih =>
    intro init
    rw [List.foldl_cons, List.foldl_cons, ih (insertRule init r)]
    rfl

theorem buildIndex_duplicate_rules_eq (rules : List RuleInput) :
    ∀ init : RuleIndex,
      (rules.foldl insertRule init).duplicate_rules =
        rules.foldl
          (fun al r => alistAppend (hashRule r.selector r.cssText) (r.file, r.selector) al)
          init.duplicate_rules := by
  induction rules with
  | nil => intro _; rfl
  | cons r rs ih =>
    intro init
    rw [List.foldl_cons, List.foldl_cons, ih (insertRule init r)]
    rfl

/-- Content of a key of a fold of `alistAppend`s: the values of the matching
inputs, in input order. -/
theorem alistGet_foldl {α β : Type} (key : α → String) (val : α → β) :
    ∀ (l : List α) (al : List (String × List β)) (k : String),
      alistGet k (l.foldl (fun acc a => alistAppend (key a) (val a) acc) al) =
        alistGet k al ++ (l.filter (fun a => key a == k)).map val := by
  intro l
  induction l with
  | nil => intro al k; simp
  | cons a as ih =>
    intro al k
    rw [List.foldl_cons, ih, alistGet_alistAppend]
    by_cases h : key a = k
    · rw [if_pos h, List.filter_cons_of_pos (by simp [h]), List.map_cons,
        List.append_assoc, List.singleton_append]
    · rw [if_neg h, List.filter_cons_of_neg (by simp [h])]

theorem keys_nodup_foldl {α β : Type} (key : α → String) (val : α → β) :
    ∀ (l : List α) (al : List (String × List β)), (al.map Prod.fst).Nodup →
      ((l.foldl (fun acc a => alistAppend (key a) (val a) acc) al).map Prod.fst).Nodup := by
  intro l
  induction l with
  | nil => intro al h; exact h
  | cons a as ih => intro al h; exact ih _ (keys_nodup_alistAppend _ _ h)

theorem buildIndex_css_get (rules : List RuleInput) (sel : String) :
    alistGet sel (buildIndex rules).css_selectors =
      (rules.filter (fun r => r.selector == sel)).map (fun r => r.file) := by
  rw [buildIndex, buildIndex_css_selectors_eq]
  exact alistGet_foldl (fun r : RuleInput => r.selector) (fun r => r.file) rules [] sel

theorem buildIndex_dup_get (rules : List RuleInput) (k : String) :
    alistGet k (buildIndex rules).duplicate_rules =
      (rules.filter (fun r => hashRule r.selector r.cssText == k)).map
        (fun r => (r.file, r.selector)) := by
  rw [buildIndex, buildIndex_duplicate_rules_eq]
  exact alistGet_foldl (fun r : RuleInput => hashRule r.selector r.cssText)
    (fun r => (r.file, r.selector)) rules [] k

theorem buildIndex_css_keys_nodup (rules : List RuleInput) :
    ((buildIndex rules).css_selectors.map Prod.fst).Nodup := by
  rw [buildIndex, buildIndex_css_selectors_eq]
  exact keys_nodup_foldl (fun r : RuleInput => r.selector) (fun r => r.file) rules []
    (by simp)

theorem buildIndex_dup_keys_nodup (rules : List RuleInput) :
    ((buildIndex rules).duplicate_rules.map Prod.fst).Nodup := by
  rw [buildIndex, buildIndex_duplicate_rules_eq]
  exact keys_nodup_foldl (fun r : RuleInput => hashRule r.selector r.cssText)
    (fun r => (r.file, r.selector)) rules [] (by simp)

/-!
## String lemmas about the `'|'`-separated rule hash
-/

theorem data_append (s t : String) : (s ++ t).data = s.data ++ t.data := by
  cases s
  cases t
  rfl

theorem string_ext {s t : String} (h : s.data = t.data) : s = t := by
  cases s
  cases t
  exact congrArg String.mk h

theorem hashRule_data (sel t : String) :
    (hashRule sel t).data = sel.data ++ '|' :: (normalizeWS t).data := by
  rw [hashRule, data_append, data_append, List.append_assoc]
  rfl

/-- Lists separated by an element that occurs in neither prefix can be
compared componentwise. -/
theorem bar_append_inj {x y : List Char} :
    ∀ {a b : List Char}, '|' ∉ a → '|' ∉ b → a ++ '|' :: x = b ++ '|' :: y →
      a = b ∧ x = y := by
  intro a
  induction a with
  | nil =>
    intro b _ hb h
    cases b with
    | nil => simpa using h
    | cons c b' =>
      simp only [List.nil_append, List.cons_append, List.cons.injEq] at h
      exact absurd (by simp [← h.1]) hb
  | cons c a' ih =>
    intro b ha hb h
    cases b with
    | nil =>
      simp only [List.cons_append, List.nil_append, List.cons.injEq] at h
      exact absurd (by simp [h.1]) ha
    | cons d b' =>
      simp only [List.cons_append, List.cons.injEq] at h
      obtain ⟨rfl, h2⟩ := h
      have hr := ih (fun hm => ha (List.mem_cons.2 (Or.inr hm)))
        (fun hm => hb (List.mem_cons.2 (Or.inr hm))) h2
      exact ⟨by rw [hr.1], hr.2⟩

/-- When the selector contains no `'|'`, splitting the hash at the first
`'|'` recovers the selector. -/
theorem splitBarHead_hashRule {sel : String} (t : String) (h : '|' ∉ sel.data) :
    splitBarHead (hashRule sel t) = sel := by
  rw [splitBarHead, hashRule_data,
    takeWhile_append_not _ (fun c hc => by
      simp only [Bool.not_eq_true', beq_eq_false_iff_ne, ne_eq]
      intro he
      exact h (by rwa [he] at hc)) (by simp)]

/-- When neither selector contains `'|'`, hash equality is exactly equality
of the selector and of the normalized declaration text. -/
theorem hashRule_eq_iff {s1 s2 : String} (t1 t2 : String)
    (h1 : '|' ∉ s1.data) (h2 : '|' ∉ s2.data) :
    hashRule s1 t1 = hashRule s2 t2 ↔ s1 = s2 ∧ normalizeWS t1 = normalizeWS t2 := by
  constructor
  · intro h
    have hd : (hashRule s1 t1).data = (hashRule s2 t2).data := by rw [h]
    rw [hashRule_data, hashRule_data] at hd
    have := bar_append_inj h1 h2 hd
    exact ⟨string_ext this.1, string_ext this.2⟩
  · rintro ⟨rfl, hn⟩
    rw [hashRule, hashRule, hn]

/-!
## The claims
-/

/-- Claim C1, counterexample.  The claim states that a tag candidate is a run
NOT immediately preceded by `.` or `#`, so that the `card` of `.card` never
appears in the tag set.  In the code the `\b` boundary of the tag regex is
satisfied after `.` and `#` (they are non-word characters), so `card` does
appear in the decomposed tag set of `.card` even though it is introduced only
by a class segment. -/
theorem C1_counterexample :
    (extractSelectorComponents ".card").tags = {"card"} ∧
    "card" ∈ (extractSelectorComponents ".card").classes := by decide

/-- Claim C1, amended.  The candidate tag names produced by decomposition are
exactly the maximal word runs of the pseudo-stripped, lowercased selector
text that fully match `[a-z][a-z0-9]*` — regardless of whether the run is
preceded by `.` or `#` — minus the fixed keyword set. -/
theorem C1_tags_characterization (s : String) :
    (extractSelectorComponents s).tags =
      (((wordRuns ((stripPseudo s.data).map Char.toLower)).filter tagPat).map
        (fun w => String.mk w)).toFinset \ keywordSet := by
  simp only [extractSelectorComponents, findTags_eq_wordRuns]

/-- Claim C2.  An entry is in the `find_unused_selectors` output exactly when
its selector record is in the index, its components are the decomposition of
its selector text, at least one component set is nonempty, and no decomposed
class/id/tag name is a member of the corresponding usage-fact set.  In
particular a selector decomposing to three empty sets is never reported. -/
theorem C2_find_unused_exact (idx : RuleIndex) (facts : UsageFacts) (e : UnusedEntry) :
    e ∈ find_unused_selectors idx facts ↔
      ((e.selector, e.files) ∈ idx.css_selectors ∧
        e.components = extractSelectorComponents e.selector ∧
        (e.components.classes.Nonempty ∨ e.components.ids.Nonempty ∨
          e.components.tags.Nonempty) ∧
        (∀ x ∈ e.components.classes, x ∉ facts.html_classes) ∧
        (∀ x ∈ e.components.ids, x ∉ facts.html_ids) ∧
        (∀ x ∈ e.components.tags, x ∉ facts.html_tags)) :=
  mem_find_unused_iff idx facts e

/-- Witness for claim C2 at a concrete instance: the characterization
applied right-to-left puts a concrete unused selector in the output. -/
theorem C2_witness :
    (⟨".y", ["g.css"], ⟨{"y"}, ∅, {"y"}⟩⟩ : UnusedEntry) ∈
      find_unused_selectors (buildIndex [⟨".y", "margin: 0", "g.css"⟩]) ⟨∅, ∅, ∅⟩ :=
  (C2_find_unused_exact (buildIndex [⟨".y", "margin: 0", "g.css"⟩]) ⟨∅, ∅, ∅⟩
    ⟨".y", ["g.css"], ⟨{"y"}, ∅, {"y"}⟩⟩).2
    ⟨by decide, by decide, Or.inl ⟨"y", by decide⟩,
      fun x _ => Finset.not_mem_empty x, fun x _ => Finset.not_mem_empty x,
      fun x _ => Finset.not_mem_empty x⟩

/-- Claim C3, counterexample.  The claim states that two rules share a Rule
Identity Key iff their selectors are byte-identical and their normalized
declaration texts are equal.  Because the key is the string
`selector ++ "|" ++ normalized`, a selector containing `'|'` collides with a
different selector: `("a|b", "c")` and `("a", "b|c")` share a key. -/
theorem C3_counterexample :
    hashRule "a|b" "c" = hashRule "a" "b|c" ∧ ("a|b" : String) ≠ "a" := by decide

/-- Claim C3, amended.  For selectors containing no `'|'` character, two
rules receive the same Rule Identity Key iff their selector texts are
byte-identical and their declaration texts are identical after whitespace
normalization. -/
theorem C3_hash_key_iff {s1 s2 : String} (t1 t2 : String)
    (h1 : '|' ∉ s1.data) (h2 : '|' ∉ s2.data) :
    hashRule s1 t1 = hashRule s2 t2 ↔ s1 = s2 ∧ normalizeWS t1 = normalizeWS t2 :=
  hashRule_eq_iff t1 t2 h1 h2

/-- Witness for the amended claim C3 at a concrete instance. -/
theorem C3_witness :
    hashRule ".a" "color:red" = hashRule ".a" "color:red" ↔
      (".a" : String) = ".a" ∧ normalizeWS "color:red" = normalizeWS "color:red" :=
  C3_hash_key_iff "color:red" "color:red" (by decide) (by decide)

/-- Claim C4, counterexample.  The claim states that declaration texts
differing only by whitespace — such as `"color:red"` versus `"color: red"` —
receive the same key.  Normalization only collapses whitespace runs and
trims; it does not erase whitespace, so these two texts normalize
differently and receive different keys. -/
theorem C4_counterexample :
    hashRule ".btn" "color:red" ≠ hashRule ".btn" "color: red" := by decide

/-- Claim C4, amended.  Rules with identical selector text whose declaration
texts are identical after collapsing every whitespace run to a single space
and trimming (such as `"color:  red"` versus `"color: red"`) receive the
same key and are reported together by `find_duplicate_rules`, while rules
with the same properties in a different order receive different keys and are
not reported as duplicates of each other. -/
theorem C4_whitespace_policy :
    (∀ sel t1 t2 : String, normalizeWS t1 = normalizeWS t2 →
        hashRule sel t1 = hashRule sel t2) ∧
    hashRule ".btn" "color:  red" = hashRule ".btn" "color: red" ∧
    find_duplicate_rules (buildIndex
        [⟨".btn", "color:  red", "a.css"⟩, ⟨".btn", "color: red", "b.css"⟩]) =
      [⟨".btn", 2, [("a.css", ".btn"), ("b.css", ".btn")]⟩] ∧
    hashRule ".btn" "color:red;margin:0" ≠ hashRule ".btn" "margin:0;color:red" ∧
    find_duplicate_rules (buildIndex
        [⟨".btn", "color:red;margin:0", "a.css"⟩,
          ⟨".btn", "margin:0;color:red", "b.css"⟩]) = [] := by
  refine ⟨?_, by decide, by decide, by decide, by decide⟩
  intro sel t1 t2 h
  rw [hashRule, hashRule, h]

/-- Witness for the amended claim C4 at a concrete instance. -/
theorem C4_witness : hashRule ".btn" "color:\tred" = hashRule ".btn" "color: red" :=
  C4_whitespace_policy.1 ".btn" "color:\tred" "color: red" (by decide)

/-- Claim C5, counterexample.  The claim states that the `rule` field of a
`find_duplicate_rules` entry equals the full selector text.  The field is
the hash split at the first `'|'`, so a selector containing `'|'` is
truncated: two identical `"a|b"` rules are reported with `rule = "a"`. -/
theorem C5_counterexample :
    find_duplicate_rules (buildIndex [⟨"a|b", "c", "f1"⟩, ⟨"a|b", "c", "f2"⟩]) =
      [⟨"a", 2, [("f1", "a|b"), ("f2", "a|b")]⟩] ∧ ("a" : String) ≠ "a|b" := by decide

/-- Claim C5, amended.  `find_duplicate_rules` returns exactly the Rule
Identity Keys whose occurrence list has length greater than 1, with `count`
the occurrence-list length and `locations` the `(source_file, selector)`
occurrence list in input order; the `rule` field is the portion of the key
before the first `'|'`, which equals the full selector text whenever the
selector contains no `'|'` character. -/
theorem C5_duplicate_rules_exact :
    (∀ (idx : RuleIndex) (e : DupRuleEntry),
        e ∈ find_duplicate_rules idx ↔
          ∃ p ∈ idx.duplicate_rules, 1 < p.2.length ∧
            e = ⟨splitBarHead p.1, p.2.length, p.2⟩) ∧
    (∀ (rules : List RuleInput) (k : String),
        alistGet k (buildIndex rules).duplicate_rules =
          (rules.filter (fun r => hashRule r.selector r.cssText == k)).map
            (fun r => (r.file, r.selector))) ∧
    (∀ sel t : String, '|' ∉ sel.data → splitBarHead (hashRule sel t) = sel) := by
  refine ⟨mem_find_duplicate_rules_iff, buildIndex_dup_get, ?_⟩
  intro sel t h
  exact splitBarHead_hashRule t h

/-- Witness for the amended claim C5 at a concrete instance. -/
theorem C5_witness : splitBarHead (hashRule ".btn" "color:red") = ".btn" :=
  C5_duplicate_rules_exact.2.2 ".btn" "color:red" (by decide)

/-- Claim C6.  `find_duplicate_selectors` reports exactly the selector texts
whose raw occurrence count over the input rules is at least 2, with `count`
the raw occurrence count (including exact repeats within one file) and
`files` the per-occurrence file list in input order. -/
theorem C6_duplicate_selectors_exact :
    (∀ (rules : List RuleInput) (e : DupSelectorEntry),
        e ∈ find_duplicate_selectors (buildIndex rules) →
          e.count = (rules.filter (fun r => r.selector == e.selector)).length ∧
          2 ≤ e.count ∧
          e.files = (rules.filter (fun r => r.selector == e.selector)).map
            (fun r => r.file)) ∧
    (∀ (rules : List RuleInput) (sel : String),
        2 ≤ (rules.filter (fun r => r.selector == sel)).length →
          ∃ e ∈ find_duplicate_selectors (buildIndex rules), e.selector = sel ∧
            e.count = (rules.filter (fun r => r.selector == sel)).length) := by
  constructor
  · intro rules e he
    rw [mem_find_duplicate_selectors_iff] at he
    obtain ⟨p, hp, hlen, rfl⟩ := he
    have hget : alistGet p.1 (buildIndex rules).css_selectors = p.2 :=
      alistGet_of_mem (buildIndex_css_keys_nodup rules) (by exact hp)
    rw [buildIndex_css_get] at hget
    refine ⟨?_, ?_, ?_⟩
    · simp only
      rw [← hget, List.length_map]
    · simpa using hlen
    · simp only
      rw [← hget]
  · intro rules sel h
    have hget := buildIndex_css_get rules sel
    have hne : alistGet sel (buildIndex rules).css_selectors ≠ [] := by
      rw [hget]
      intro hcontra
      rw [← List.length_eq_zero] at hcontra
      rw [List.length_map] at hcontra
      omega
    have hmem := mem_of_alistGet_ne_nil hne
    refine ⟨⟨sel, (alistGet sel (buildIndex rules).css_selectors).length,
      alistGet sel (buildIndex rules).css_selectors⟩, ?_, rfl, ?_⟩
    · rw [mem_find_duplicate_selectors_iff]
      refine ⟨(sel, alistGet sel (buildIndex rules).css_selectors), hmem, ?_, rfl⟩
      rw [hget, List.length_map]
      omega
    · simp only
      rw [hget, List.length_map]

/-- Witness for claim C6 at a concrete instance. -/
theorem C6_witness :
    2 = ([⟨".btn", "padding: 4px", "a.css"⟩,
          ⟨".btn", "padding: 4px", "b.css"⟩].filter
        (fun r : RuleInput => r.selector == ".btn")).length ∧
    2 ≤ 2 ∧
    ["a.css", "b.css"] = ([⟨".btn", "padding: 4px", "a.css"⟩,
          ⟨".btn", "padding: 4px", "b.css"⟩].filter
        (fun r : RuleInput => r.selector == ".btn")).map (fun r => r.file) :=
  C6_duplicate_selectors_exact.1
    [⟨".btn", "padding: 4px", "a.css"⟩, ⟨".btn", "padding: 4px", "b.css"⟩]
    ⟨".btn", 2, ["a.css", "b.css"]⟩ (by decide)

/-- Claim C7.  `find_unused_selectors` is antitone in the usage fact base:
replacing each fact set by a subset only ever adds entries to the unused
report — every entry reported with the larger fact base is still reported
with the smaller one. -/
theorem C7_find_unused_antitone (idx : RuleIndex) (big small : UsageFacts)
    (hc : small.html_classes ⊆ big.html_classes)
    (hi : small.html_ids ⊆ big.html_ids)
    (ht : small.html_tags ⊆ big.html_tags) :
    ∀ e ∈ find_unused_selectors idx big, e ∈ find_unused_selectors idx small := by
  intro e he
  rw [mem_find_unused_iff] at he ⊢
  obtain ⟨h1, h2, h3, h4, h5, h6⟩ := he
  exact ⟨h1, h2, h3, fun x hx hm => h4 x hx (hc hm),
    fun x hx hm => h5 x hx (hi hm), fun x hx hm => h6 x hx (ht hm)⟩

/-- Witness for claim C7 at a concrete instance: shrinking the fact base to
empty keeps a previously-unused selector in the report. -/
theorem C7_witness :
    (⟨".x", ["f.css"], ⟨{"x"}, ∅, {"x"}⟩⟩ : UnusedEntry) ∈
      find_unused_selectors (buildIndex [⟨".x", "color: red", "f.css"⟩]) ⟨∅, ∅, ∅⟩ :=
  C7_find_unused_antitone (buildIndex [⟨".x", "color: red", "f.css"⟩])
    ⟨{"y"}, {"z"}, {"w"}⟩ ⟨∅, ∅, ∅⟩ (by decide) (by decide) (by decide)
    ⟨".x", ["f.css"], ⟨{"x"}, ∅, {"x"}⟩⟩ (by decide)

/-- Claim C8.  Decomposition and the three analyzer operations are total:
every selector string (including the empty string, unmatched brackets, and
combinator-only strings) decomposes to three possibly-empty sets, and the
analyzers return well-typed (possibly empty) lists on every index and fact
base, including the empty ones. -/
theorem C8_totality :
    (∀ s : String, ∃ c : Components, extractSelectorComponents s = c) ∧
    extractSelectorComponents "" = ⟨∅, ∅, ∅⟩ ∧
    extractSelectorComponents "[(" = ⟨∅, ∅, ∅⟩ ∧
    extractSelectorComponents "> + ~" = ⟨∅, ∅, ∅⟩ ∧
    (∀ (idx : RuleIndex) (facts : UsageFacts),
        ∃ l : List UnusedEntry, find_unused_selectors idx facts = l) ∧
    (∀ idx : RuleIndex, ∃ l : List DupSelectorEntry, find_duplicate_selectors idx = l) ∧
    (∀ idx : RuleIndex, ∃ l : List DupRuleEntry, find_duplicate_rules idx = l) ∧
    (∀ facts : UsageFacts, find_unused_selectors ⟨[], []⟩ facts = []) ∧
    find_duplicate_selectors ⟨[], []⟩ = [] ∧
    find_duplicate_rules ⟨[], []⟩ = [] :=
  ⟨fun _ => ⟨_, rfl⟩, by decide, by decide, by decide, fun _ _ => ⟨_, rfl⟩,
    fun _ => ⟨_, rfl⟩, fun _ => ⟨_, rfl⟩, fun _ => rfl, rfl, rfl⟩

/-- Claim C9.  `"div:hover::after"` decomposes to `tags = {"div"}` with empty
class and id sets, and whenever `"div"` is absent from the markup tag facts a
rule with that selector appears in the `find_unused_selectors` output. -/
theorem C9_pseudo_stripping :
    extractSelectorComponents "div:hover::after" = ⟨∅, ∅, {"div"}⟩ ∧
    ∀ facts : UsageFacts, "div" ∉ facts.html_tags →
      (⟨"div:hover::after", ["a.css"], ⟨∅, ∅, {"div"}⟩⟩ : UnusedEntry) ∈
        find_unused_selectors
          (buildIndex [⟨"div:hover::after", "color: red", "a.css"⟩]) facts := by
  refine ⟨by decide, ?_⟩
  intro facts h
  rw [mem_find_unused_iff]
  refine ⟨by decide, by decide, Or.inr (Or.inr ?_), ?_, ?_, ?_⟩
  · exact ⟨"div", by decide⟩
  · intro x hx
    have hx' : x ∈ (∅ : Finset String) := hx
    exact absurd hx' (Finset.not_mem_empty x)
  · intro x hx
    have hx' : x ∈ (∅ : Finset String) := hx
    exact absurd hx' (Finset.not_mem_empty x)
  · intro x hx
    have hx' : x ∈ ({"div"} : Finset String) := hx
    rw [Finset.mem_singleton] at hx'
    rwa [hx']

/-- Witness for claim C9 at the empty fact base. -/
theorem C9_witness :
    (⟨"div:hover::after", ["a.css"], ⟨∅, ∅, {"div"}⟩⟩ : UnusedEntry) ∈
      find_unused_selectors
        (buildIndex [⟨"div:hover::after", "color: red", "a.css"⟩]) ⟨∅, ∅, ∅⟩ :=
  C9_pseudo_stripping.2 ⟨∅, ∅, ∅⟩ (by decide)

/-- Claim C10.  A selector text that is exactly one of the excluded keywords
`not`, `is`, `where`, `has` decomposes to three empty sets (the keyword is
subtracted from the tag candidates), so no `find_unused_selectors` entry ever
carries such a selector, for any index and any usage facts. -/
theorem C10_keyword_selectors :
    (extractSelectorComponents "not" = ⟨∅, ∅, ∅⟩ ∧
      extractSelectorComponents "is" = ⟨∅, ∅, ∅⟩ ∧
      extractSelectorComponents "where" = ⟨∅, ∅, ∅⟩ ∧
      extractSelectorComponents "has" = ⟨∅, ∅, ∅⟩) ∧
    ∀ (idx : RuleIndex) (facts : UsageFacts) (e : UnusedEntry),
      e ∈ find_unused_selectors idx facts →
        e.selector ∉ ({"not", "is", "where", "has"} : Finset String) := by
  refine ⟨⟨by decide, by decide, by decide, by decide⟩, ?_⟩
  intro idx facts e he hsel
  rw [mem_find_unused_iff] at he
  obtain ⟨-, hcomp, hne, -⟩ := he
  simp only [Finset.mem_insert, Finset.mem_singleton] at hsel
  rcases hsel with h | h | h | h <;>
    (rw [h] at hcomp; rw [hcomp] at hne; revert hne; decide)

/-- Witness for claim C10 at a concrete reported entry. -/
theorem C10_witness :
    (⟨".x", ["f.css"], ⟨{"x"}, ∅, {"x"}⟩⟩ : UnusedEntry).selector ∉
      ({"not", "is", "where", "has"} : Finset String) :=
  C10_keyword_selectors.2 (buildIndex [⟨".x", "color: red", "f.css"⟩]) ⟨∅, ∅, ∅⟩
    ⟨".x", ["f.css"], ⟨{"x"}, ∅, {"x"}⟩⟩ (by decide)

end CssHtml
